import Mathlib

/-!
Verification of the rendering core of the `vessels` 2D graphics library.

The development shallowly embeds the Rust sources
`src/targets/native/graphics/pure2d.rs` (the Cairo backend: Gaussian box blur,
frame/object graph, shadow pass, image snapshots) and `src/graphics/path.rs`
(the segment/path/builder geometry model).  Machine floating-point (`f64`)
arithmetic is modelled by exact rational arithmetic; machine integer casts
(`as u8`, `as u32`, `as i32`) are modelled explicitly.  Fallible operations
(out-of-bounds slice indexing, `unwrap` on surface creation), which panic in
Rust, are modelled with `Option`.
-/

set_option maxHeartbeats 1000000
set_option maxRecDepth 16384

/-! ## Scalar helpers: Rust numeric casts on the idealized `f64` model -/

/-- Truncation toward zero, the first step of Rust `f64 as i32`. -/
def ratTrunc (q : ℚ) : ℤ := if q < 0 then ⌈q⌉ else ⌊q⌋

/-- Rust `f64 as i32`: truncate toward zero, saturating at the `i32` range. -/
def castI32 (q : ℚ) : ℤ := max (-2147483648) (min 2147483647 (ratTrunc q))

/-- Rust `f64::round`: round to the nearest integer, halves away from zero. -/
def roundAway (q : ℚ) : ℤ := if q < 0 then -(round (-q)) else round q

/-- Rust `(x).round() as u8`: round, then saturate into `[0, 255]`. -/
def toU8 (q : ℚ) : ℕ := (min 255 (max 0 (roundAway q))).toNat

/-! ## Shared geometry/color data model -/

/-- `Point2D` (crate::graphics): a 2D coordinate pair; also stands for the
backend `Vector`/`Distance2D`, which have the same two `f64` fields. -/
structure Point2D where
  x : ℚ
  y : ℚ
deriving DecidableEq

/-- `Segment2D` (src/graphics/path.rs), identical in shape to the `Segment`
enum consumed by the Cairo backend. -/
inductive Segment2D
  | LineTo (p : Point2D)
  | MoveTo (p : Point2D)
  | QuadraticTo (p : Point2D) (handle : Point2D)
  | CubicTo (p : Point2D) (h1 : Point2D) (h2 : Point2D)
deriving DecidableEq

/-- 8-bit-per-channel RGBA color (`Color`/`RGBA8`); channels kept as `ℕ`. -/
structure RGBA8 where
  r : ℕ
  g : ℕ
  b : ℕ
  a : ℕ
deriving DecidableEq

/-- Modelled from the spec: `Transform2D` (crate::graphics, not under src/) is
a row-major 2x3 affine transform `[xx, xy; yx, yy]` plus translation
`[x0, y0]`; its `Default` is the identity transform. -/
structure Transform2D where
  xx : ℚ
  xy : ℚ
  yx : ℚ
  yy : ℚ
  x0 : ℚ
  y0 : ℚ
deriving DecidableEq

/-- Modelled from the spec: `Transform2D::default()` is the identity. -/
def Transform2D.default : Transform2D := ⟨1, 0, 0, 1, 0, 0⟩

/-- Modelled from the spec: `Transform::to_matrix` flattens the affine
transform into the six entries `[xx, xy, yx, yy, x0, y0]` consumed by the
Cairo `Matrix` constructor in the draw pass. -/
def Transform2D.to_matrix (t : Transform2D) : List ℚ :=
  [t.xx, t.xy, t.yx, t.yy, t.x0, t.y0]

/-! ## `boxes_for_gauss` (pure2d.rs lines 62-77)

The `f64` expressions are modelled over `ℚ`.  The floor of the real square
root of a rational `q ≥ 0` equals `Nat.sqrt ⌊q⌋` (both are the largest `k`
with `k * k ≤ q`), which keeps the definition executable. -/

def boxes_for_gauss (sigma : ℚ) (n : ℕ) : List ℕ :=
  let nf : ℚ := n
  let wl0 : ℕ := Nat.sqrt (⌊12 * sigma * sigma / nf + 1⌋).toNat
  let wl : ℕ := if wl0 % 2 = 0 then wl0 - 1 else wl0
  let wu : ℕ := wl + 2
  let wlf : ℚ := wl
  let m : ℕ :=
    (roundAway ((12 * sigma * sigma - nf * wlf * wlf - 4 * nf * wlf - 3 * nf) /
      (-4 * wlf - 4))).toNat
  (List.range n).map (fun i => if i < m then wl else wu)

/-! ## The box-blur engine (pure2d.rs lines 83-227)

A pixel is `[u8; 4]`; buffers are flat row-major pixel lists.  Slice indexing
is bounds-checked (`Option`), mirroring the Rust panics.  The horizontal pass
`box_blur_h` and the vertical pass `box_blur_t` run the same running-sum
sliding window over a line of pixels; they differ only in the line's base
index, stride, and length, captured by `blurLine`. -/

/-- One RGBA pixel, Rust `[u8; 4]`. -/
structure Pix where
  c0 : ℕ
  c1 : ℕ
  c2 : ℕ
  c3 : ℕ
deriving DecidableEq

/-- Channel read `p[channel]`, bounds-checked as in Rust. -/
def Pix.ch (p : Pix) : ℕ → Option ℕ
  | 0 => some p.c0
  | 1 => some p.c1
  | 2 => some p.c2
  | 3 => some p.c3
  | _ + 4 => none

/-- Channel write `p[channel] = v`, bounds-checked as in Rust. -/
def Pix.setCh (p : Pix) : ℕ → ℕ → Option Pix
  | 0, v => some { p with c0 := v }
  | 1, v => some { p with c1 := v }
  | 2, v => some { p with c2 := v }
  | 3, v => some { p with c3 := v }
  | _ + 4, _ => none

/-- `i32::from(buf[i as usize][c])`: bounds-checked pixel-channel read at a
(possibly negative) `i32` index. -/
def readCh (l : List Pix) (i : ℤ) (c : ℕ) : Option ℤ :=
  if 0 ≤ i then
    match l[i.toNat]? with
    | some p =>
      match p.ch c with
      | some v => some (v : ℤ)
      | none => none
    | none => none
  else none

/-- `buf[i as usize][c] = v`: bounds-checked pixel-channel write. -/
def writeCh (l : List Pix) (i : ℤ) (c v : ℕ) : Option (List Pix) :=
  if 0 ≤ i then
    match l[i.toNat]? with
    | some p =>
      match p.setCh c v with
      | some q => some (l.set i.toNat q)
      | none => none
    | none => none
  else none

/-- The mutable locals of one line of a blur pass: the running sum `val`
and the target/leading/trailing indices `ti`, `li`, `ri`. -/
structure BState where
  val : ℤ
  ti : ℤ
  li : ℤ
  ri : ℤ
  tgt : List Pix
deriving DecidableEq

/-- First window loop (`for _ in 0..=radius`): add the incoming edge pixel,
subtract the replicated first value `fv`, write the average. -/
def bLoop1 (src : List Pix) (c : ℕ) (d fv : ℤ) (iarr : ℚ) :
    ℕ → BState → Option BState
  | 0, s => some s
  | n + 1, s =>
    match readCh src s.ri c with
    | some x =>
      let val := s.val + x - fv
      match writeCh s.tgt s.ti c (toU8 ((val : ℚ) * iarr)) with
      | some tgt => bLoop1 src c d fv iarr n ⟨val, s.ti + d, s.li, s.ri + d, tgt⟩
      | none => none
    | none => none

/-- Middle window loop (`for _ in radius+1..len-radius`): slide the window by
adding the leading pixel and subtracting the trailing pixel. -/
def bLoop2 (src : List Pix) (c : ℕ) (d : ℤ) (iarr : ℚ) :
    ℕ → BState → Option BState
  | 0, s => some s
  | n + 1, s =>
    match readCh src s.ri c, readCh src s.li c with
    | some xr, some xl =>
      let val := s.val + xr - xl
      match writeCh s.tgt s.ti c (toU8 ((val : ℚ) * iarr)) with
      | some tgt => bLoop2 src c d iarr n ⟨val, s.ti + d, s.li + d, s.ri + d, tgt⟩
      | none => none
    | _, _ => none

/-- Last window loop (`for _ in len-radius..len`): add the replicated last
value `lv`, subtract the trailing pixel. -/
def bLoop3 (src : List Pix) (c : ℕ) (d lv : ℤ) (iarr : ℚ) :
    ℕ → BState → Option BState
  | 0, s => some s
  | n + 1, s =>
    match readCh src s.li c with
    | some xl =>
      let val := s.val + lv - xl
      match writeCh s.tgt s.ti c (toU8 ((val : ℚ) * iarr)) with
      | some tgt => bLoop3 src c d lv iarr n ⟨val, s.ti + d, s.li + d, s.ri, tgt⟩
      | none => none
    | none => none

/-- The window priming loop (`for j in 0..radius { val += src[base + j*d] }`). -/
def initSum (src : List Pix) (c : ℕ) (base d : ℤ) : ℕ → Option ℤ
  | 0 => some 0
  | n + 1 =>
    match initSum src c base d n, readCh src (base + n * d) c with
    | some acc, some x => some (acc + x)
    | _, _ => none

/-- One line (a row of `box_blur_h` or a column of `box_blur_t`) of the
running-sum box blur, with base index `base`, stride `d`, `len` pixels and
radius `r`; mirrors the loop body of pure2d.rs lines 112-142 / 154-185.
The middle-loop count is the `i32` difference `(len - radius) - (radius + 1)`
clamped at zero, and the last loop runs `radius` times, as the `i32` ranges do. -/
def blurLine (src : List Pix) (c : ℕ) (base d : ℤ) (len r : ℕ)
    (tgt : List Pix) : Option (List Pix) :=
  let iarr : ℚ := 1 / (2 * (r : ℚ) + 1)
  match readCh src base c, readCh src (base + ((len : ℤ) - 1) * d) c with
  | some fv, some lv =>
    match initSum src c base d r with
    | some acc =>
      let val : ℤ := ((r : ℤ) + 1) * fv + acc
      match bLoop1 src c d fv iarr (r + 1) ⟨val, base, base, base + (r : ℤ) * d, tgt⟩ with
      | some s1 =>
        match bLoop2 src c d iarr ((len : ℤ) - 2 * (r : ℤ) - 1).toNat s1 with
        | some s2 =>
          match bLoop3 src c d lv iarr r s2 with
          | some s3 => some s3.tgt
          | none => none
        | none => none
      | none => none
    | none => none
  | _, _ => none

/-- Rows `0..n` of the horizontal pass, in increasing order. -/
def hRows (src : List Pix) (c : ℕ) (w r : ℕ) : ℕ → List Pix → Option (List Pix)
  | 0, tgt => some tgt
  | n + 1, tgt =>
    match hRows src c w r n tgt with
    | some tgt1 => blurLine src c ((n : ℤ) * (w : ℤ)) 1 w r tgt1
    | none => none

/-- Columns `0..n` of the vertical (transposed) pass, in increasing order. -/
def tCols (src : List Pix) (c : ℕ) (w h r : ℕ) : ℕ → List Pix → Option (List Pix)
  | 0, tgt => some tgt
  | n + 1, tgt =>
    match tCols src c w h r n tgt with
    | some tgt1 => blurLine src c (n : ℤ) (w : ℤ) h r tgt1
    | none => none

/-- `CairoImage::box_blur_h` (pure2d.rs lines 103-144): for each row, run the
sliding window with stride 1 over `width` pixels. -/
def box_blur_h (source target : List Pix) (width height radius c : ℕ) :
    Option (List Pix) :=
  hRows source c width radius height target

/-- `CairoImage::box_blur_t` (pure2d.rs lines 145-186): for each column, run
the sliding window with stride `width` over `height` pixels. -/
def box_blur_t (source target : List Pix) (width height radius c : ℕ) :
    Option (List Pix) :=
  tCols source c width height radius width target

/-- `CairoImage::box_blur` (pure2d.rs lines 83-102): copy `data` into a
scratch buffer, run the horizontal pass `data → target`, then the vertical
pass `target → data`. -/
def box_blur (data : List Pix) (width height radius c : ℕ) :
    Option (List Pix) :=
  let target := data
  match box_blur_h data target width height radius c with
  | some target1 => box_blur_t target1 data width height radius c
  | none => none

/-- The three box blurs of one channel, radii `(b - 1) / 2` for the three
computed box widths (pure2d.rs lines 204-226). -/
def blurChannel (data : List Pix) (width height : ℕ) (r0 r1 r2 : ℕ) (c : ℕ) :
    Option (List Pix) :=
  match box_blur data width height r0 c with
  | some d1 =>
    match box_blur d1 width height r1 c with
    | some d2 => box_blur d2 width height r2 c
    | none => none
  | none => none

/-- `CairoImage::blur` (pure2d.rs lines 187-227): three box-blur passes per
color channel (channels 0, 1 and 2 only), radii from `boxes_for_gauss`. -/
def blur (data : List Pix) (width height : ℕ) (radius : ℚ) :
    Option (List Pix) :=
  match boxes_for_gauss radius 3 with
  | [b0, b1, b2] =>
    let r0 := (b0 - 1) / 2
    let r1 := (b1 - 1) / 2
    let r2 := (b2 - 1) / 2
    match blurChannel data width height r0 r1 r2 0 with
    | some d1 =>
      match blurChannel d1 width height r0 r1 r2 1 with
      | some d2 => blurChannel d2 width height r0 r1 r2 2
      | none => none
    | none => none
  | _ => none

/-! ## Bezier evaluation and the drawn point-set semantics of a path -/

/-- Quadratic Bezier with start `s`, handle `h`, end `p`. -/
def quadBezierPoint (s h p : Point2D) (t : ℚ) : Point2D :=
  ⟨(1 - t) ^ 2 * s.x + 2 * (1 - t) * t * h.x + t ^ 2 * p.x,
   (1 - t) ^ 2 * s.y + 2 * (1 - t) * t * h.y + t ^ 2 * p.y⟩

/-- Cubic Bezier with start `s`, controls `c1`, `c2`, end `p`. -/
def cubicBezierPoint (s c1 c2 p : Point2D) (t : ℚ) : Point2D :=
  ⟨(1 - t) ^ 3 * s.x + 3 * (1 - t) ^ 2 * t * c1.x + 3 * (1 - t) * t ^ 2 * c2.x + t ^ 3 * p.x,
   (1 - t) ^ 3 * s.y + 3 * (1 - t) ^ 2 * t * c1.y + 3 * (1 - t) * t ^ 2 * c2.y + t ^ 3 * p.y⟩

/-- The cubic control points the draw pass emits for `QuadraticTo(point,
handle)`: `context.curve_to(handle.x, handle.y, handle.x, handle.y, point.x,
point.y)` (pure2d.rs lines 513-515), i.e. both handles equal to the single
quadratic handle, ending at `point`. -/
def quadraticEmittedControls (point handle : Point2D) :
    Point2D × Point2D × Point2D :=
  (handle, handle, point)

/-- Linear interpolation from `a` to `b`. -/
def lerpP (a b : Point2D) (t : ℚ) : Point2D :=
  ⟨a.x + t * (b.x - a.x), a.y + t * (b.y - a.y)⟩

/-- The set of points on the straight segment from `a` to `b`. -/
def lineSegSet (a b : Point2D) : Set Point2D :=
  {q | ∃ t : ℚ, 0 ≤ t ∧ t ≤ 1 ∧ q = lerpP a b t}

/-- The set of points on the cubic Bezier from `s` to `p`. -/
def cubicSet (s c1 c2 p : Point2D) : Set Point2D :=
  {q | ∃ t : ℚ, 0 ≤ t ∧ t ≤ 1 ∧ q = cubicBezierPoint s c1 c2 p t}

/-- Points drawn by replaying `segs` from current point `cur`, mirroring the
segment match of `draw_path` (pure2d.rs lines 501-516): `LineTo` draws a
straight segment, `MoveTo` only moves, cubs draw cubics, and `QuadraticTo`
draws the doubled-handle cubic the code emits. -/
def pathTraceAux : List Segment2D → Point2D → Set Point2D
  | [], _ => ∅
  | Segment2D.LineTo p :: rest, cur => lineSegSet cur p ∪ pathTraceAux rest p
  | Segment2D.MoveTo p :: rest, _ => pathTraceAux rest p
  | Segment2D.QuadraticTo p h :: rest, cur => cubicSet cur h h p ∪ pathTraceAux rest p
  | Segment2D.CubicTo p h1 h2 :: rest, cur => cubicSet cur h1 h2 p ∪ pathTraceAux rest p

/-- The current point after replaying `segs` from `cur`. -/
def pathCur : List Segment2D → Point2D → Point2D
  | [], cur => cur
  | Segment2D.LineTo p :: rest, _ => pathCur rest p
  | Segment2D.MoveTo p :: rest, _ => pathCur rest p
  | Segment2D.QuadraticTo p _ :: rest, _ => pathCur rest p
  | Segment2D.CubicTo p _ _ :: rest, _ => pathCur rest p

/-- The start of the current subpath (the point of the last `MoveTo`, or the
initial current point), the point `close_path` joins back to. -/
def pathStart : List Segment2D → Point2D → Point2D
  | [], st => st
  | Segment2D.MoveTo p :: rest, _ => pathStart rest p
  | _ :: rest, st => pathStart rest st

/-- The set of points drawn for a path outline by `draw_path`: an implicit
`move_to(0, 0)`, the segment replay, and — when the path is closed — the
closing segment `close_path` adds back to the subpath start. -/
def pathTrace (segs : List Segment2D) (closed : Bool) : Set Point2D :=
  pathTraceAux segs ⟨0, 0⟩ ∪
    (if closed then lineSegSet (pathCur segs ⟨0, 0⟩) (pathStart segs ⟨0, 0⟩) else ∅)

/-! ## `CairoImage` snapshots (pure2d.rs lines 258-295) -/

/-- `Texture2D` (crate::graphics_2d, not under src/): raw-buffer pixel format,
fields in source order `height`, `width` as constructed by `as_texture`. -/
structure Texture2D where
  height : ℕ
  width : ℕ
deriving DecidableEq

/-- `Image<Color, Texture2D>` (crate::graphics_2d, not under src/): a raw
pixel buffer plus its format. -/
structure Image where
  pixels : List RGBA8
  format : Texture2D
deriving DecidableEq

/-- A `CairoImage` handle, reduced to the dimensions of its backing
`ImageSurface` (the only state the embedded operations consult). -/
structure CairoImageModel where
  width : ℤ
  height : ℤ
deriving DecidableEq

/-- `CairoImage::as_texture` (pure2d.rs lines 271-279): returns an image
description with an empty pixel vector and a 0 x 0 format, whatever the
surface holds. -/
def CairoImage.as_texture (_ : CairoImageModel) : Image :=
  ⟨[], ⟨0, 0⟩⟩

/-- `CairoImage::from_texture` (pure2d.rs lines 281-290): creates a fresh
blank ARgb32 surface of the texture's dimensions (`width as i32`,
`height as i32`; the `u32 → i32` cast wraps, and `ImageSurface::create`'s
`unwrap` panics on a negative dimension) and never copies the pixels. -/
def CairoImage.from_texture (texture : Image) : Option CairoImageModel :=
  if texture.format.width < 2 ^ 31 ∧ texture.format.height < 2 ^ 31 then
    some ⟨texture.format.width, texture.format.height⟩
  else none

/-! ## The backend path model and the shadow pass (pure2d.rs lines 414-480)

`crate::path` (the `Path`/`Segment`/`Texture`/`Shadow` module consumed by the
backend) is not under src/; its shapes are modelled from the spec (§3) plus
the fields the backend code reads (`segments`, `closed`, `stroke`, `fill`,
`shadows`, and `Shadow.{color, offset, spread, blur}`). -/

/-- `GradientStop`: `(offset, color)`. -/
structure GradientStopM where
  offset : ℚ
  color : RGBA8
deriving DecidableEq

/-- `LinearGradient`: ordered stops plus start/end anchors. -/
structure LinearGradientM where
  stops : List GradientStopM
  start : Point2D
  endP : Point2D
deriving DecidableEq

/-- `RadialGradient`: ordered stops plus start/end circles. -/
structure RadialGradientM where
  stops : List GradientStopM
  start : Point2D
  start_radius : ℚ
  endP : Point2D
  end_radius : ℚ
deriving DecidableEq

/-- `Texture` (crate::path): a paintable content source. -/
inductive Texture
  | Solid (color : RGBA8)
  | LinearGradient (gradient : LinearGradientM)
  | RadialGradient (gradient : RadialGradientM)
  | Image (image : CairoImageModel)
deriving DecidableEq

/-- `StrokeCapType` (src/graphics/path.rs). -/
inductive StrokeCapType
  | Butt
  | Round
deriving DecidableEq

/-- `StrokeJoinType` (src/graphics/path.rs). -/
inductive StrokeJoinType
  | Bevel
  | Round
  | Miter
deriving DecidableEq

/-- The backend `Stroke`: content, width, cap, join. -/
structure PStroke where
  content : Texture
  width : ℚ
  cap : StrokeCapType
  join : StrokeJoinType
deriving DecidableEq

/-- The backend `Fill`. -/
structure PFill where
  content : Texture
deriving DecidableEq

/-- Modelled from the spec: the backend shadow descriptor (`Shadow2D`:
color, offset, blur), extended with the `spread` field `draw_shadows` reads. -/
structure PShadow where
  color : RGBA8
  offset : Point2D
  spread : ℚ
  blur : ℚ
deriving DecidableEq

/-- Modelled from the spec: the backend `Path` (crate::path, not under src/),
with the fields the Cairo draw pass reads. -/
structure PPath where
  segments : List Segment2D
  closed : Bool
  stroke : Option PStroke
  fill : Option PFill
  shadows : List PShadow
deriving DecidableEq

/-- One drawing call issued to the Cairo context. -/
inductive CairoOp
  | restore
  | save
  | transformM (m : List ℚ)
  | translate (x y : ℚ)
  | scaleBy (x y : ℚ)
  | lineTo (x y : ℚ)
  | moveTo (x y : ℚ)
  | curveTo (x1 y1 x2 y2 x3 y3 : ℚ)
  | closePath
  | setSourceRGBA (r g b a : ℚ)
  | fillOp
deriving DecidableEq

/-- The context call emitted for one segment, shared by the shadow replay
(pure2d.rs lines 439-454) and the main path replay (lines 501-516). -/
def segOp : Segment2D → CairoOp
  | Segment2D.LineTo p => CairoOp.lineTo p.x p.y
  | Segment2D.MoveTo p => CairoOp.moveTo p.x p.y
  | Segment2D.CubicTo p h1 h2 => CairoOp.curveTo h1.x h1.y h2.x h2.y p.x p.y
  | Segment2D.QuadraticTo p h => CairoOp.curveTo h.x h.y h.x h.y p.x p.y

/-- Modelled from the spec: `Path::bounds()` (crate::path, not under src/) —
the path's axis-aligned bounding box; `draw_shadows` only uses its size,
here the extent of the segments' points together with the origin. -/
def boundsSize (segs : List Segment2D) : Point2D :=
  let pts : List Point2D :=
    List.foldr (fun s acc =>
      match s with
      | Segment2D.LineTo p => p :: acc
      | Segment2D.MoveTo p => p :: acc
      | Segment2D.QuadraticTo p h => p :: h :: acc
      | Segment2D.CubicTo p h1 h2 => p :: h1 :: h2 :: acc) [] segs
  let xs := pts.map Point2D.x
  let ys := pts.map Point2D.y
  ⟨xs.foldl max 0 - xs.foldl min 0, ys.foldl max 0 - ys.foldl min 0⟩

/-- The calls `draw_shadows` issues for one shadow (pure2d.rs lines 417-468),
given the enclosing path's `segments` and `closed` flag: re-apply the world
transform, translate by the scale offset plus the shadow offset, scale by
`(size + 2·spread) / size`, replay the segments, close when the path is
closed, set the shadow color, fill.  The shadow's `blur` field is never read
(the blur call is commented out in the source). -/
def shadowOps (m : List ℚ) (segments : List Segment2D) (closed : Bool)
    (shadow : PShadow) : List CairoOp :=
  let spread := shadow.spread * 2
  let size := boundsSize segments
  let scale : Point2D := ⟨(size.x + spread) / size.x, (size.y + spread) / size.y⟩
  let newSize : Point2D := ⟨size.x + spread, size.y + spread⟩
  let scaleOffset : Point2D := ⟨(size.x - newSize.x) / 2, (size.y - newSize.y) / 2⟩
  [CairoOp.restore, CairoOp.save, CairoOp.transformM m,
   CairoOp.translate (scaleOffset.x + shadow.offset.x) (scaleOffset.y + shadow.offset.y),
   CairoOp.scaleBy scale.x scale.y] ++
  segments.map segOp ++
  (if closed then [CairoOp.closePath] else []) ++
  [CairoOp.setSourceRGBA ((shadow.color.r : ℚ) / 255) ((shadow.color.g : ℚ) / 255)
      ((shadow.color.b : ℚ) / 255) ((shadow.color.a : ℚ) / 255),
   CairoOp.fillOp]

/-- `CairoFrame::draw_shadows` (pure2d.rs lines 414-480): the per-shadow
calls for every shadow in order, then a final restore/save/re-transform. -/
def draw_shadows (m : List ℚ) (entity : PPath) : List CairoOp :=
  (entity.shadows.flatMap (shadowOps m entity.segments entity.closed)) ++
    [CairoOp.restore, CairoOp.save, CairoOp.transformM m]

/-! ## The frame / object graph (pure2d.rs lines 297-806) -/

/-- A text run; only its presence matters to the embedded claims.  Modelled
from the spec (§4.5): the full `Text` type lives outside the rendering core. -/
structure TextRun where
  content : String
deriving DecidableEq

/-- `Rasterizable`: a drawable entity — a vector path or a text run. -/
inductive Rasterizable
  | path (p : PPath)
  | text (t : TextRun)
deriving DecidableEq

/-- `Rect` (crate::graphics_2d): viewport rectangle. -/
structure RectM where
  size : Point2D
  position : Point2D
deriving DecidableEq

/-- `Content` (crate::graphics_2d, not under src/): what `Frame::add`
consumes — content, transform and depth, as read by `CairoFrame::add`. -/
structure Content where
  content : Rasterizable
  transform : Transform2D
  depth : ℕ
deriving DecidableEq

/-- `CairoObjectState` (pure2d.rs lines 761-765). -/
structure CairoObjectState where
  orientation : Transform2D
  content : Rasterizable
  depth : ℕ
deriving DecidableEq

/-- `CairoFrameState` (pure2d.rs lines 297-303); the Cairo context is
reduced to the dimensions of its backing surface. -/
structure CairoFrameState where
  contents : List CairoObjectState
  viewport : RectM
  size : Point2D
  pixel_ratio : ℚ
  surfaceW : ℤ
  surfaceH : ℤ
deriving DecidableEq

/-- `CairoFrame::add` (pure2d.rs lines 677-682): build the object, push it
onto the contents list, and hand the same object back to the caller. -/
def CairoFrame.add (s : CairoFrameState) (content : Content) :
    CairoFrameState × CairoObjectState :=
  let object : CairoObjectState := ⟨content.transform, content.content, content.depth⟩
  ({ s with contents := s.contents ++ [object] }, object)

/-- Fold a sequence of `add` calls. -/
def CairoFrame.addAll (s : CairoFrameState) (cs : List Content) : CairoFrameState :=
  cs.foldl (fun st c => (CairoFrame.add st c).1) s

/-- Rewrite every stored object's depth (any depth mutations through the
shared object handles before the next draw pass). -/
def CairoFrame.mapDepth (f : ℕ → ℕ) (s : CairoFrameState) : CairoFrameState :=
  { s with contents := s.contents.map (fun o => { o with depth := f o.depth }) }

/-- `CairoFrame::resize` (pure2d.rs lines 689-694): store the new size and
recreate the backing surface with `ImageSurface::create(Format::ARgb32,
size.x as i32, size.y as i32).unwrap()`; surface creation fails — and the
`unwrap` panics — on a negative dimension. -/
def CairoFrame.resize (s : CairoFrameState) (size : Point2D) :
    Option CairoFrameState :=
  let w := castI32 size.x
  let h := castI32 size.y
  if 0 ≤ w ∧ 0 ≤ h then
    some { s with size := size, surfaceW := w, surfaceH := h }
  else none

/-- The size reported by `to_image()` (pure2d.rs lines 701-703): `surface()`
runs `draw()` and snapshots the context's target surface, whose
`CairoImage::get_size` (lines 259-265) returns the surface dimensions. -/
def CairoFrame.to_image_size (s : CairoFrameState) : Point2D :=
  ⟨(s.surfaceW : ℚ), (s.surfaceH : ℚ)⟩

/-- The object visitation of `draw()` (pure2d.rs lines 750-757): walk
`contents` in list order and dispatch each object's transform matrix and
content to `draw_path`/`draw_text`. -/
def CairoFrame.drawVisits (s : CairoFrameState) : List (List ℚ × Rasterizable) :=
  s.contents.map (fun o => (o.orientation.to_matrix, o.content))

namespace path

/-! ## src/graphics/path.rs: the typed path builder -/

/-- `Shadow2D` (src/graphics/path.rs lines 25-29). -/
structure Shadow2D where
  color : RGBA8
  offset : Point2D
  blur : ℚ
deriving DecidableEq

/-- `VectorTexture<T>` (src/graphics/path.rs lines 58-67). -/
inductive VectorTexture (T : Type)
  | Solid (color : RGBA8)
  | LinearGradient (gradient : LinearGradientM)
  | RadialGradient (gradient : RadialGradientM)
  | Image (image : T)

/-- `Stroke<T>` (src/graphics/path.rs lines 69-78). -/
structure Stroke (T : Type) where
  content : VectorTexture T
  width : ℚ
  cap : StrokeCapType
  join : StrokeJoinType

/-- `Fill<T>` (src/graphics/path.rs lines 107-113). -/
structure Fill (T : Type) where
  content : VectorTexture T

/-- `Path<T>` (src/graphics/path.rs lines 115-126). -/
structure Path (T : Type) where
  orientation : Transform2D
  segments : List Segment2D
  stroke : Option (Stroke T)
  fill : Option (Fill T)
  shadow : Option Shadow2D
  closed : Bool

/-- `Builder<T>` (src/graphics/path.rs lines 236-245). -/
structure Builder (T : Type) where
  closed : Bool
  geometry : List Segment2D
  fill : Option (Fill T)
  stroke : Option (Stroke T)
  shadow : Option Shadow2D

/-- `Builder::new` (src/graphics/path.rs lines 251-259). -/
def Builder.new {T : Type} (geometry : List Segment2D) : Builder T :=
  ⟨false, geometry, none, none, none⟩

/-- One chained builder call: `close`, `fill`, `stroke` or `shadow`. -/
inductive BuilderOp (T : Type)
  | close
  | fill (f : Fill T)
  | stroke (s : Stroke T)
  | shadow (sh : Shadow2D)

/-- The builder methods (src/graphics/path.rs lines 260-284): each sets one
field and returns the builder. -/
def Builder.applyOp {T : Type} (b : Builder T) : BuilderOp T → Builder T
  | BuilderOp.close => { b with closed := true }
  | BuilderOp.fill f => { b with fill := some f }
  | BuilderOp.stroke s => { b with stroke := some s }
  | BuilderOp.shadow sh => { b with shadow := some sh }

/-- A whole builder chain. -/
def Builder.applyOps {T : Type} (b : Builder T) (ops : List (BuilderOp T)) : Builder T :=
  ops.foldl Builder.applyOp b

/-- `Builder::finalize` (src/graphics/path.rs lines 285-297). -/
def Builder.finalize {T : Type} (b : Builder T) : Path T :=
  { closed := b.closed
    segments := b.geometry
    orientation := Transform2D.default
    fill := b.fill
    shadow := b.shadow
    stroke := b.stroke }

/-- Modelled from the spec: `CUBIC_BEZIER_CIRCLE_APPROXIMATION_RATIO`
(crate::graphics, not under src/), the constant `0.5523` of the standard
4-cubic circle approximation (the code multiplies `radius` by `1 - ratio`). -/
def CUBIC_BEZIER_CIRCLE_APPROXIMATION_RATIO : ℚ := 5523 / 10000

/-- `GeometryPrimitive::rectangle` (src/graphics/path.rs lines 162-171). -/
def GeometryPrimitive.rectangle {T : Type} (width height : ℚ) : Builder T :=
  Builder.new
    [Segment2D.LineTo ⟨width, 0⟩,
     Segment2D.LineTo ⟨width, height⟩,
     Segment2D.LineTo ⟨0, height⟩]

/-- `GeometryPrimitive::rounded_rectangle` (src/graphics/path.rs lines
172-221). -/
def GeometryPrimitive.rounded_rectangle {T : Type} (width height radius : ℚ) :
    Builder T :=
  Builder.new
    [Segment2D.MoveTo ⟨radius, 0⟩,
     Segment2D.LineTo ⟨width - radius, 0⟩,
     Segment2D.CubicTo ⟨width, radius⟩
       ⟨width - radius * (1 - CUBIC_BEZIER_CIRCLE_APPROXIMATION_RATIO), 0⟩
       ⟨width, radius * (1 - CUBIC_BEZIER_CIRCLE_APPROXIMATION_RATIO)⟩,
     Segment2D.LineTo ⟨width, height - radius⟩,
     Segment2D.CubicTo ⟨width - radius, height⟩
       ⟨width, height - radius * (1 - CUBIC_BEZIER_CIRCLE_APPROXIMATION_RATIO)⟩
       ⟨width - radius * (1 - CUBIC_BEZIER_CIRCLE_APPROXIMATION_RATIO), height⟩,
     Segment2D.LineTo ⟨radius, height⟩,
     Segment2D.CubicTo ⟨0, height - radius⟩
       ⟨radius * (1 - CUBIC_BEZIER_CIRCLE_APPROXIMATION_RATIO), height⟩
       ⟨0, height - radius * (1 - CUBIC_BEZIER_CIRCLE_APPROXIMATION_RATIO)⟩,
     Segment2D.LineTo ⟨0, radius⟩,
     Segment2D.CubicTo ⟨radius, 0⟩
       ⟨0, radius * (1 - CUBIC_BEZIER_CIRCLE_APPROXIMATION_RATIO)⟩
       ⟨radius * (1 - CUBIC_BEZIER_CIRCLE_APPROXIMATION_RATIO), 0⟩]

end path

/-! ## Predicates about pixel buffers -/

/-- Every pixel of the buffer holds value `v` in channel `c`. -/
def chUniform (c v : ℕ) (l : List Pix) : Prop := ∀ p ∈ l, p.ch c = some v

/-- The channel-`ch` content of an optional pixel. -/
def optCh (o : Option Pix) (ch : ℕ) : Option ℕ := o.bind (fun p => p.ch ch)

/-- Two pixel buffers agree pointwise on channel `ch`. -/
def agreesOn (ch : ℕ) (a b : List Pix) : Prop :=
  a.length = b.length ∧ ∀ i : ℕ, optCh a[i]? ch = optCh b[i]? ch

/-! ## Helper lemmas -/

theorem Pix.setCh_lt (p : Pix) {c : ℕ} (v : ℕ) (hc : c < 4) :
    ∃ q, p.setCh c v = some q ∧ q.ch c = some v := by
  interval_cases c <;> exact ⟨_, rfl, rfl⟩

theorem Pix.setCh_ch_ne {p q : Pix} {c v ch : ℕ} (h : p.setCh c v = some q)
    (hne : ch ≠ c) : q.ch ch = p.ch ch := by
  rcases c with _ | _ | _ | _ | c <;> rcases ch with _ | _ | _ | _ | ch <;>
    simp_all [Pix.ch, Pix.setCh] <;> subst h <;> rfl

theorem readCh_uniform {l : List Pix} {c v : ℕ} (hu : chUniform c v l) {i : ℤ}
    (h0 : 0 ≤ i) (hlt : i.toNat < l.length) : readCh l i c = some (v : ℤ) := by
  simp only [readCh, if_pos h0, List.getElem?_eq_getElem hlt,
    hu _ (List.getElem_mem hlt)]

theorem chUniform_set {l : List Pix} {c v : ℕ} (hu : chUniform c v l) {q : Pix}
    (hq : q.ch c = some v) (n : ℕ) : chUniform c v (l.set n q) := by
  intro x hx
  rcases List.mem_or_eq_of_mem_set hx with h | h
  · exact hu x h
  · exact h ▸ hq

theorem writeCh_uniform {l : List Pix} {c v : ℕ} (hu : chUniform c v l) (hc : c < 4)
    {i : ℤ} (h0 : 0 ≤ i) (hlt : i.toNat < l.length) :
    ∃ l2, writeCh l i c v = some l2 ∧ l2.length = l.length ∧ chUniform c v l2 := by
  obtain ⟨q, hq, hqc⟩ := Pix.setCh_lt (l.get ⟨i.toNat, hlt⟩) v hc
  refine ⟨l.set i.toNat q, ?_, by simp, chUniform_set hu hqc _⟩
  simp only [writeCh, if_pos h0, List.getElem?_eq_getElem hlt]
  rw [show l[i.toNat] = l.get ⟨i.toNat, hlt⟩ from rfl, hq]

theorem toU8_of_le {v : ℕ} (hv : v ≤ 255) : toU8 (v : ℚ) = v := by
  unfold toU8 roundAway
  rw [if_neg (not_lt.mpr (by positivity)), round_natCast]
  have h2 : (v : ℤ) ≤ 255 := by exact_mod_cast hv
  omega

theorem toU8_window {r v : ℕ} (hv : v ≤ 255) :
    toU8 ((((2 * (r : ℤ) + 1) * (v : ℤ) : ℤ) : ℚ) * (1 / (2 * (r : ℚ) + 1))) = v := by
  have hne : (2 * (r : ℚ) + 1) ≠ 0 := by positivity
  have heq : (((2 * (r : ℤ) + 1) * (v : ℤ) : ℤ) : ℚ) * (1 / (2 * (r : ℚ) + 1)) =
      (v : ℚ) := by
    push_cast
    field_simp
  rw [heq]
  exact toU8_of_le hv

theorem boxes_for_gauss_mem (sigma : ℚ) (n : ℕ) :
    ∀ x ∈ boxes_for_gauss sigma n, x % 2 = 1 ∧ 1 ≤ x := by
  intro x hx
  unfold boxes_for_gauss at hx
  simp only [List.mem_map, List.mem_range] at hx
  obtain ⟨i, hi, rfl⟩ := hx
  have hq : (0 : ℚ) ≤ 12 * sigma * sigma / (n : ℚ) :=
    div_nonneg (by nlinarith [mul_self_nonneg sigma]) (by positivity)
  have hfl : (1 : ℤ) ≤ ⌊12 * sigma * sigma / (n : ℚ) + 1⌋ := by
    refine Int.le_floor.mpr ?_
    push_cast
    linarith
  have htn : 1 ≤ (⌊12 * sigma * sigma / (n : ℚ) + 1⌋).toNat := by omega
  have hsq : 1 ≤ Nat.sqrt (⌊12 * sigma * sigma / (n : ℚ) + 1⌋).toNat :=
    Nat.le_sqrt.mpr (by simpa using htn)
  split_ifs <;> omega

/-! ## C1: `boxes_for_gauss(sigma, 3)` shape -/

/-- C1: for every `sigma ≥ 0`, `boxes_for_gauss(sigma, 3)` returns exactly 3
positive integer widths, and the first two are odd. -/
theorem boxes_for_gauss_three_positive_first_two_odd (sigma : ℚ)
    (hσ : 0 ≤ sigma) :
    (boxes_for_gauss sigma 3).length = 3 ∧
    (∀ x ∈ boxes_for_gauss sigma 3, 0 < x) ∧
    (∀ x ∈ (boxes_for_gauss sigma 3).take 2, x % 2 = 1) := by
  refine ⟨?_, ?_, ?_⟩
  · unfold boxes_for_gauss
    simp
  · intro x hx
    have := boxes_for_gauss_mem sigma 3 x hx
    omega
  · intro x hx
    exact (boxes_for_gauss_mem sigma 3 x (List.mem_of_mem_take hx)).1

/-- C1 witness: the property evaluated at `sigma = 2`. -/
theorem boxes_for_gauss_three_positive_first_two_odd_witness :
    (0 : ℚ) ≤ 2 ∧
    ((boxes_for_gauss 2 3).length = 3 ∧
     (∀ x ∈ boxes_for_gauss 2 3, 0 < x) ∧
     (∀ x ∈ (boxes_for_gauss 2 3).take 2, x % 2 = 1)) :=
  ⟨by norm_num, boxes_for_gauss_three_positive_first_two_odd 2 (by norm_num)⟩

/-! ## C3: the emitted cubic does not trace the quadratic -/

/-- C3 (code bug): for the quadratic segment `QuadraticTo((1,0), (0,1))`
starting at `(0,0)`, the cubic the draw pass emits (both handles equal to the
quadratic handle) evaluates at `t = 1/2` to `(1/8, 3/4)`, while the direct
quadratic evaluates to `(1/4, 1/2)` — a difference of `1/4` in `y`, far
beyond floating-point tolerance.  (The correct degree elevation would use
handles `s + 2/3·(h - s)` and `p + 2/3·(h - p)`.) -/
theorem quadraticTo_draw_pass_divergence :
    cubicBezierPoint ⟨0, 0⟩ (quadraticEmittedControls ⟨1, 0⟩ ⟨0, 1⟩).1
      (quadraticEmittedControls ⟨1, 0⟩ ⟨0, 1⟩).2.1
      (quadraticEmittedControls ⟨1, 0⟩ ⟨0, 1⟩).2.2 (1 / 2) = ⟨1 / 8, 3 / 4⟩ ∧
    quadBezierPoint ⟨0, 0⟩ ⟨0, 1⟩ ⟨1, 0⟩ (1 / 2) = ⟨1 / 4, 1 / 2⟩ ∧
    (⟨1 / 8, 3 / 4⟩ : Point2D) ≠ ⟨1 / 4, 1 / 2⟩ := by
  refine ⟨?_, ?_, ?_⟩ <;>
    simp only [cubicBezierPoint, quadBezierPoint, quadraticEmittedControls,
      Point2D.mk.injEq, ne_eq, not_and] <;>
    norm_num

/-! ## C4: `draw()` visits objects in insertion order, ignoring depth -/

/-- C4: after any sequence of `add` calls the draw pass visits the frame's
objects in exactly the order of the calls (the internal contents list), and
rewriting every object's depth leaves the visitation unchanged — depth never
affects iteration order. -/
theorem draw_visits_insertion_order (s : CairoFrameState) (cs : List Content)
    (f : ℕ → ℕ) :
    CairoFrame.drawVisits (CairoFrame.addAll s cs) =
      CairoFrame.drawVisits s ++
        cs.map (fun c => (c.transform.to_matrix, c.content)) ∧
    CairoFrame.drawVisits (CairoFrame.mapDepth f (CairoFrame.addAll s cs)) =
      CairoFrame.drawVisits (CairoFrame.addAll s cs) := by
  constructor
  · induction cs generalizing s with
    | nil => simp [CairoFrame.addAll, CairoFrame.drawVisits]
    | cons c rest ih =>
      have h1 : CairoFrame.addAll s (c :: rest) =
          CairoFrame.addAll (CairoFrame.add s c).1 rest := rfl
      rw [h1, ih]
      simp [CairoFrame.add, CairoFrame.drawVisits]
  · generalize CairoFrame.addAll s cs = t
    unfold CairoFrame.mapDepth CairoFrame.drawVisits
    simp only [List.map_map]
    exact List.map_congr_left (fun o _ => rfl)

/-! ## C5: the shadow pass is independent of the blur field -/

/-- C5: the drawing operations `draw_shadows` issues do not depend on the
shadows' `blur` fields: replacing every shadow's blur by any other value
yields an identical operation trace (the blur parameter is stored but never
applied in the draw pass). -/
theorem draw_shadows_blur_independent (m : List ℚ) (e : PPath) (f : ℚ → ℚ) :
    draw_shadows m
      { e with shadows := e.shadows.map (fun s => { s with blur := f s.blur }) } =
      draw_shadows m e := by
  obtain ⟨segs, cl, st, fl, shs⟩ := e
  unfold draw_shadows
  simp only
  congr 1
  induction shs with
  | nil => rfl
  | cons s rest ih =>
    simp only [List.map_cons, List.flatMap_cons]
    rw [ih]
    rfl

/-! ## C6: `to_image` size after `resize` -/

/-- C6 counterexample: resizing to the fractional size `(1/2, 1/2)` produces
a surface whose snapshot reports size `(0, 0)`, not `(1/2, 1/2)` — the claim
fails for size vectors that are not whole numbers. -/
theorem resize_to_image_size_cex :
    (CairoFrame.resize ⟨[], ⟨⟨0, 0⟩, ⟨0, 0⟩⟩, ⟨0, 0⟩, 1, 0, 0⟩
        ⟨1 / 2, 1 / 2⟩).map CairoFrame.to_image_size = some ⟨0, 0⟩ ∧
    (⟨0, 0⟩ : Point2D) ≠ ⟨1 / 2, 1 / 2⟩ := by
  constructor
  · with_unfolding_all rfl
  · simp only [ne_eq, Point2D.mk.injEq, not_and]
    norm_num

/-- C6 (amended): for every size vector with nonnegative whole-number
coordinates in the `i32` range, resizing a frame — also right after adding an
object — succeeds, `to_image()` reports exactly the new size, and the
subsequent draw pass still visits the added object. -/
theorem resize_to_image_size (s : CairoFrameState) (c : Content) (m n : ℕ)
    (hm : m ≤ 2147483647) (hn : n ≤ 2147483647) :
    ∃ s2, CairoFrame.resize (CairoFrame.add s c).1 ⟨(m : ℚ), (n : ℚ)⟩ = some s2 ∧
      CairoFrame.to_image_size s2 = ⟨(m : ℚ), (n : ℚ)⟩ ∧
      CairoFrame.drawVisits s2 =
        CairoFrame.drawVisits s ++ [(c.transform.to_matrix, c.content)] := by
  have hcast : ∀ k : ℕ, k ≤ 2147483647 → castI32 (k : ℚ) = (k : ℤ) := by
    intro k hk
    unfold castI32 ratTrunc
    rw [if_neg (not_lt.mpr (by positivity)), Int.floor_natCast]
    have h1 : (k : ℤ) ≤ 2147483647 := by exact_mod_cast hk
    omega
  have hres : CairoFrame.resize (CairoFrame.add s c).1 ⟨(m : ℚ), (n : ℚ)⟩ =
      some { (CairoFrame.add s c).1 with size := ⟨(m : ℚ), (n : ℚ)⟩,
                                         surfaceW := (m : ℤ),
                                         surfaceH := (n : ℤ) } := by
    unfold CairoFrame.resize
    rw [hcast m hm, hcast n hn]
    rw [if_pos ⟨Int.ofNat_nonneg m, Int.ofNat_nonneg n⟩]
  refine ⟨_, hres, ?_, ?_⟩
  · simp [CairoFrame.to_image_size]
  · simp [CairoFrame.drawVisits, CairoFrame.add]

/-! ## Uniform-channel invariants of the blur loops -/

theorem bLoop1_uniform (src : List Pix) (c v : ℕ) (d : ℤ) (iarr : ℚ) (V : ℤ)
    (hu : chUniform c v src) (hc : c < 4) (hw : toU8 ((V : ℚ) * iarr) = v) :
    ∀ (n : ℕ) (s : BState), s.val = V → chUniform c v s.tgt →
      (∀ j : ℕ, j < n → 0 ≤ s.ri + j * d ∧ (s.ri + j * d).toNat < src.length) →
      (∀ j : ℕ, j < n → 0 ≤ s.ti + j * d ∧ (s.ti + j * d).toNat < s.tgt.length) →
      ∃ t2, bLoop1 src c d (v : ℤ) iarr n s =
          some ⟨V, s.ti + n * d, s.li, s.ri + n * d, t2⟩ ∧
        t2.length = s.tgt.length ∧ chUniform c v t2 := by
  intro n
  induction n with
  | zero =>
    intro s hval hut _ _
    refine ⟨s.tgt, ?_, rfl, hut⟩
    cases s
    simp_all [bLoop1]
  | succ n ih =>
    intro s hval hut hri hti
    have hri0 : 0 ≤ s.ri ∧ s.ri.toNat < src.length := by
      have := hri 0 (Nat.succ_pos n)
      simpa using this
    have hti0 : 0 ≤ s.ti ∧ s.ti.toNat < s.tgt.length := by
      have := hti 0 (Nat.succ_pos n)
      simpa using this
    have hread : readCh src s.ri c = some (v : ℤ) :=
      readCh_uniform hu hri0.1 hri0.2
    have hval2 : s.val + (v : ℤ) - (v : ℤ) = V := by rw [hval]; ring
    obtain ⟨tgt1, hwr, hlen1, hut1⟩ := writeCh_uniform hut hc hti0.1 hti0.2
    have hwr2 : writeCh s.tgt s.ti c (toU8 ((↑(s.val + (v : ℤ) - (v : ℤ)) : ℚ) * iarr)) =
        some tgt1 := by
      rw [hval2, hw]
      exact hwr
    obtain ⟨t2, hrec, hlen2, hut2⟩ :=
      ih ⟨s.val + (v : ℤ) - (v : ℤ), s.ti + d, s.li, s.ri + d, tgt1⟩ hval2 hut1
        (by
          intro j hj
          have heq : s.ri + d + (j : ℤ) * d = s.ri + ((j + 1 : ℕ) : ℤ) * d := by
            push_cast
            ring
          simpa only [heq] using hri (j + 1) (by omega))
        (by
          intro j hj
          have heq : s.ti + d + (j : ℤ) * d = s.ti + ((j + 1 : ℕ) : ℤ) * d := by
            push_cast
            ring
          rw [show tgt1.length = s.tgt.length from hlen1]
          simpa only [heq] using hti (j + 1) (by omega))
    refine ⟨t2, ?_, hlen2.trans hlen1, hut2⟩
    simp only [bLoop1, hread, hwr2, hrec]
    have e1 : s.ti + d + (n : ℤ) * d = s.ti + ((n + 1 : ℕ) : ℤ) * d := by
      push_cast
      ring
    have e2 : s.ri + d + (n : ℤ) * d = s.ri + ((n + 1 : ℕ) : ℤ) * d := by
      push_cast
      ring
    rw [e1, e2]

theorem bLoop2_uniform (src : List Pix) (c v : ℕ) (d : ℤ) (iarr : ℚ) (V : ℤ)
    (hu : chUniform c v src) (hc : c < 4) (hw : toU8 ((V : ℚ) * iarr) = v) :
    ∀ (n : ℕ) (s : BState), s.val = V → chUniform c v s.tgt →
      (∀ j : ℕ, j < n → 0 ≤ s.ri + j * d ∧ (s.ri + j * d).toNat < src.length) →
      (∀ j : ℕ, j < n → 0 ≤ s.li + j * d ∧ (s.li + j * d).toNat < src.length) →
      (∀ j : ℕ, j < n → 0 ≤ s.ti + j * d ∧ (s.ti + j * d).toNat < s.tgt.length) →
      ∃ t2, bLoop2 src c d iarr n s =
          some ⟨V, s.ti + n * d, s.li + n * d, s.ri + n * d, t2⟩ ∧
        t2.length = s.tgt.length ∧ chUniform c v t2 := by
  intro n
  induction n with
  | zero =>
    intro s hval hut _ _ _
    refine ⟨s.tgt, ?_, rfl, hut⟩
    cases s
    simp_all [bLoop2]
  | succ n ih =>
    intro s hval hut hri hli hti
    have hri0 : 0 ≤ s.ri ∧ s.ri.toNat < src.length := by
      have := hri 0 (Nat.succ_pos n)
      simpa using this
    have hli0 : 0 ≤ s.li ∧ s.li.toNat < src.length := by
      have := hli 0 (Nat.succ_pos n)
      simpa using this
    have hti0 : 0 ≤ s.ti ∧ s.ti.toNat < s.tgt.length := by
      have := hti 0 (Nat.succ_pos n)
      simpa using this
    have hreadr : readCh src s.ri c = some (v : ℤ) :=
      readCh_uniform hu hri0.1 hri0.2
    have hreadl : readCh src s.li c = some (v : ℤ) :=
      readCh_uniform hu hli0.1 hli0.2
    have hval2 : s.val + (v : ℤ) - (v : ℤ) = V := by rw [hval]; ring
    obtain ⟨tgt1, hwr, hlen1, hut1⟩ := writeCh_uniform hut hc hti0.1 hti0.2
    have hwr2 : writeCh s.tgt s.ti c (toU8 ((↑(s.val + (v : ℤ) - (v : ℤ)) : ℚ) * iarr)) =
        some tgt1 := by
      rw [hval2, hw]
      exact hwr
    obtain ⟨t2, hrec, hlen2, hut2⟩ :=
      ih ⟨s.val + (v : ℤ) - (v : ℤ), s.ti + d, s.li + d, s.ri + d, tgt1⟩ hval2 hut1
        (by
          intro j hj
          have heq : s.ri + d + (j : ℤ) * d = s.ri + ((j + 1 : ℕ) : ℤ) * d := by
            push_cast
            ring
          simpa only [heq] using hri (j + 1) (by omega))
        (by
          intro j hj
          have heq : s.li + d + (j : ℤ) * d = s.li + ((j + 1 : ℕ) : ℤ) * d := by
            push_cast
            ring
          simpa only [heq] using hli (j + 1) (by omega))
        (by
          intro j hj
          have heq : s.ti + d + (j : ℤ) * d = s.ti + ((j + 1 : ℕ) : ℤ) * d := by
            push_cast
            ring
          rw [show tgt1.length = s.tgt.length from hlen1]
          simpa only [heq] using hti (j + 1) (by omega))
    refine ⟨t2, ?_, hlen2.trans hlen1, hut2⟩
    simp only [bLoop2, hreadr, hreadl, hwr2, hrec]
    have e1 : s.ti + d + (n : ℤ) * d = s.ti + ((n + 1 : ℕ) : ℤ) * d := by
      push_cast
      ring
    have e2 : s.li + d + (n : ℤ) * d = s.li + ((n + 1 : ℕ) : ℤ) * d := by
      push_cast
      ring
    have e3 : s.ri + d + (n : ℤ) * d = s.ri + ((n + 1 : ℕ) : ℤ) * d := by
      push_cast
      ring
    rw [e1, e2, e3]

theorem bLoop3_uniform (src : List Pix) (c v : ℕ) (d : ℤ) (iarr : ℚ) (V : ℤ)
    (hu : chUniform c v src) (hc : c < 4) (hw : toU8 ((V : ℚ) * iarr) = v) :
    ∀ (n : ℕ) (s : BState), s.val = V → chUniform c v s.tgt →
      (∀ j : ℕ, j < n → 0 ≤ s.li + j * d ∧ (s.li + j * d).toNat < src.length) →
      (∀ j : ℕ, j < n → 0 ≤ s.ti + j * d ∧ (s.ti + j * d).toNat < s.tgt.length) →
      ∃ t2, bLoop3 src c d (v : ℤ) iarr n s =
          some ⟨V, s.ti + n * d, s.li + n * d, s.ri, t2⟩ ∧
        t2.length = s.tgt.length ∧ chUniform c v t2 := by
  intro n
  induction n with
  | zero =>
    intro s hval hut _ _
    refine ⟨s.tgt, ?_, rfl, hut⟩
    cases s
    simp_all [bLoop3]
  | succ n ih =>
    intro s hval hut hli hti
    have hli0 : 0 ≤ s.li ∧ s.li.toNat < src.length := by
      have := hli 0 (Nat.succ_pos n)
      simpa using this
    have hti0 : 0 ≤ s.ti ∧ s.ti.toNat < s.tgt.length := by
      have := hti 0 (Nat.succ_pos n)
      simpa using this
    have hreadl : readCh src s.li c = some (v : ℤ) :=
      readCh_uniform hu hli0.1 hli0.2
    have hval2 : s.val + (v : ℤ) - (v : ℤ) = V := by rw [hval]; ring
    obtain ⟨tgt1, hwr, hlen1, hut1⟩ := writeCh_uniform hut hc hti0.1 hti0.2
    have hwr2 : writeCh s.tgt s.ti c (toU8 ((↑(s.val + (v : ℤ) - (v : ℤ)) : ℚ) * iarr)) =
        some tgt1 := by
      rw [hval2, hw]
      exact hwr
    obtain ⟨t2, hrec, hlen2, hut2⟩ :=
      ih ⟨s.val + (v : ℤ) - (v : ℤ), s.ti + d, s.li + d, s.ri, tgt1⟩ hval2 hut1
        (by
          intro j hj
          have heq : s.li + d + (j : ℤ) * d = s.li + ((j + 1 : ℕ) : ℤ) * d := by
            push_cast
            ring
          simpa only [heq] using hli (j + 1) (by omega))
        (by
          intro j hj
          have heq : s.ti + d + (j : ℤ) * d = s.ti + ((j + 1 : ℕ) : ℤ) * d := by
            push_cast
            ring
          rw [show tgt1.length = s.tgt.length from hlen1]
          simpa only [heq] using hti (j + 1) (by omega))
    refine ⟨t2, ?_, hlen2.trans hlen1, hut2⟩
    simp only [bLoop3, hreadl, hwr2, hrec]
    have e1 : s.ti + d + (n : ℤ) * d = s.ti + ((n + 1 : ℕ) : ℤ) * d := by
      push_cast
      ring
    have e2 : s.li + d + (n : ℤ) * d = s.li + ((n + 1 : ℕ) : ℤ) * d := by
      push_cast
      ring
    rw [e1, e2]

theorem initSum_uniform (src : List Pix) (c v : ℕ) (base d : ℤ)
    (hu : chUniform c v src) :
    ∀ n : ℕ,
      (∀ j : ℕ, j < n → 0 ≤ base + j * d ∧ (base + j * d).toNat < src.length) →
      initSum src c base d n = some ((n : ℤ) * (v : ℤ)) := by
  intro n
  induction n with
  | zero => intro _; simp [initSum]
  | succ n ih =>
    intro hb
    have h1 := ih (fun j hj => hb j (by omega))
    have h2 : readCh src (base + (n : ℤ) * d) c = some (v : ℤ) :=
      readCh_uniform hu (hb n (by omega)).1 (hb n (by omega)).2
    simp only [initSum, h1, h2]
    congr 1
    push_cast
    ring

theorem blurLine_uniform (src tgt : List Pix) (c v : ℕ) (base d : ℤ) (len r : ℕ)
    (hu : chUniform c v src) (hut : chUniform c v tgt) (hc : c < 4) (hv : v ≤ 255)
    (hlen : tgt.length = src.length) (hr : 2 * r < len)
    (hb : ∀ k : ℕ, k < len → 0 ≤ base + k * d ∧ (base + k * d).toNat < src.length) :
    ∃ t2, blurLine src c base d len r tgt = some t2 ∧
      t2.length = src.length ∧ chUniform c v t2 := by
  have hbase : 0 ≤ base ∧ base.toNat < src.length := by
    have := hb 0 (by omega)
    simpa using this
  have hfv : readCh src base c = some (v : ℤ) := readCh_uniform hu hbase.1 hbase.2
  have hlast : 0 ≤ base + ((len : ℤ) - 1) * d ∧
      (base + ((len : ℤ) - 1) * d).toNat < src.length := by
    have h1 := hb (len - 1) (by omega)
    have heq : base + ((len - 1 : ℕ) : ℤ) * d = base + ((len : ℤ) - 1) * d := by
      have h2 : ((len - 1 : ℕ) : ℤ) = (len : ℤ) - 1 := by omega
      rw [h2]
    rwa [heq] at h1
  have hlv : readCh src (base + ((len : ℤ) - 1) * d) c = some (v : ℤ) :=
    readCh_uniform hu hlast.1 hlast.2
  have hacc : initSum src c base d r = some ((r : ℤ) * (v : ℤ)) :=
    initSum_uniform src c v base d hu r (fun j hj => hb j (by omega))
  have hw : toU8 ((((2 * (r : ℤ) + 1) * (v : ℤ) : ℤ) : ℚ) * (1 / (2 * (r : ℚ) + 1))) = v :=
    toU8_window hv
  have hval1 : ((r : ℤ) + 1) * (v : ℤ) + (r : ℤ) * (v : ℤ) = (2 * (r : ℤ) + 1) * (v : ℤ) := by
    ring
  obtain ⟨t1, h1, hl1, hu1⟩ :=
    bLoop1_uniform src c v d (1 / (2 * (r : ℚ) + 1)) ((2 * (r : ℤ) + 1) * (v : ℤ))
      hu hc hw (r + 1)
      ⟨((r : ℤ) + 1) * (v : ℤ) + (r : ℤ) * (v : ℤ), base, base, base + (r : ℤ) * d, tgt⟩
      hval1 hut
      (by
        intro j hj
        show 0 ≤ base + (r : ℤ) * d + (j : ℤ) * d ∧
          (base + (r : ℤ) * d + (j : ℤ) * d).toNat < src.length
        have heq : base + (r : ℤ) * d + (j : ℤ) * d = base + ((r + j : ℕ) : ℤ) * d := by
          push_cast
          ring
        rw [heq]
        exact hb (r + j) (by omega))
      (by
        intro j hj
        show 0 ≤ base + (j : ℤ) * d ∧ (base + (j : ℤ) * d).toNat < tgt.length
        rw [hlen]
        exact hb j (by omega))
  have hl1c : t1.length = tgt.length := hl1
  set n2 : ℕ := ((len : ℤ) - 2 * (r : ℤ) - 1).toNat with hn2def
  have hn2 : n2 = len - 2 * r - 1 := by omega
  obtain ⟨t2x, h2, hl2, hu2⟩ :=
    bLoop2_uniform src c v d (1 / (2 * (r : ℚ) + 1)) ((2 * (r : ℤ) + 1) * (v : ℤ))
      hu hc hw n2
      ⟨(2 * (r : ℤ) + 1) * (v : ℤ), base + ((r + 1 : ℕ) : ℤ) * d, base,
        base + (r : ℤ) * d + ((r + 1 : ℕ) : ℤ) * d, t1⟩
      rfl hu1
      (by
        intro j hj
        show 0 ≤ base + (r : ℤ) * d + ((r + 1 : ℕ) : ℤ) * d + (j : ℤ) * d ∧
          (base + (r : ℤ) * d + ((r + 1 : ℕ) : ℤ) * d + (j : ℤ) * d).toNat < src.length
        have heq : base + (r : ℤ) * d + ((r + 1 : ℕ) : ℤ) * d + (j : ℤ) * d =
            base + ((2 * r + 1 + j : ℕ) : ℤ) * d := by
          push_cast
          ring
        rw [heq]
        exact hb (2 * r + 1 + j) (by omega))
      (by
        intro j hj
        show 0 ≤ base + (j : ℤ) * d ∧ (base + (j : ℤ) * d).toNat < src.length
        exact hb j (by omega))
      (by
        intro j hj
        show 0 ≤ base + ((r + 1 : ℕ) : ℤ) * d + (j : ℤ) * d ∧
          (base + ((r + 1 : ℕ) : ℤ) * d + (j : ℤ) * d).toNat < t1.length
        have heq : base + ((r + 1 : ℕ) : ℤ) * d + (j : ℤ) * d =
            base + ((r + 1 + j : ℕ) : ℤ) * d := by
          push_cast
          ring
        rw [heq, hl1c, hlen]
        exact hb (r + 1 + j) (by omega))
  have hl2c : t2x.length = t1.length := hl2
  obtain ⟨t3, h3, hl3, hu3⟩ :=
    bLoop3_uniform src c v d (1 / (2 * (r : ℚ) + 1)) ((2 * (r : ℤ) + 1) * (v : ℤ))
      hu hc hw r
      ⟨(2 * (r : ℤ) + 1) * (v : ℤ),
        base + ((r + 1 : ℕ) : ℤ) * d + (n2 : ℤ) * d,
        base + (n2 : ℤ) * d,
        base + (r : ℤ) * d + ((r + 1 : ℕ) : ℤ) * d + (n2 : ℤ) * d, t2x⟩
      rfl hu2
      (by
        intro j hj
        show 0 ≤ base + (n2 : ℤ) * d + (j : ℤ) * d ∧
          (base + (n2 : ℤ) * d + (j : ℤ) * d).toNat < src.length
        have heq : base + (n2 : ℤ) * d + (j : ℤ) * d =
            base + ((n2 + j : ℕ) : ℤ) * d := by
          push_cast
          ring
        rw [heq]
        exact hb (n2 + j) (by omega))
      (by
        intro j hj
        show 0 ≤ base + ((r + 1 : ℕ) : ℤ) * d + (n2 : ℤ) * d + (j : ℤ) * d ∧
          (base + ((r + 1 : ℕ) : ℤ) * d + (n2 : ℤ) * d + (j : ℤ) * d).toNat < t2x.length
        have heq : base + ((r + 1 : ℕ) : ℤ) * d + (n2 : ℤ) * d + (j : ℤ) * d =
            base + ((r + 1 + n2 + j : ℕ) : ℤ) * d := by
          push_cast
          ring
        rw [heq, hl2c, hl1c, hlen]
        exact hb (r + 1 + n2 + j) (by omega))
  refine ⟨t3, ?_, hl3.trans (hl2c.trans (hl1c.trans hlen)), hu3⟩
  simp only [blurLine, hfv, hlv, hacc, h1, h2, h3]

theorem hRows_uniform (src : List Pix) (c v w h r : ℕ)
    (hu : chUniform c v src) (hc : c < 4) (hv : v ≤ 255) (hr : 2 * r < w)
    (hsrc : src.length = w * h) :
    ∀ n : ℕ, n ≤ h → ∀ tgt : List Pix, chUniform c v tgt →
      tgt.length = src.length →
      ∃ t2, hRows src c w r n tgt = some t2 ∧ t2.length = src.length ∧
        chUniform c v t2 := by
  intro n
  induction n with
  | zero => intro _ tgt hut hlen; exact ⟨tgt, rfl, hlen, hut⟩
  | succ n ih =>
    intro hn tgt hut hlen
    obtain ⟨t1, h1, hl1, hu1⟩ := ih (by omega) tgt hut hlen
    obtain ⟨t2, h2, hl2, hu2⟩ :=
      blurLine_uniform src t1 c v ((n : ℤ) * (w : ℤ)) 1 w r hu hu1 hc hv hl1 hr
        (by
          intro k hk
          have h3 : (n + 1) * w ≤ h * w := Nat.mul_le_mul_right w hn
          rw [Nat.succ_mul] at h3
          have hlt : n * w + k < src.length :=
            calc n * w + k < n * w + w := Nat.add_lt_add_left hk _
              _ ≤ h * w := h3
              _ = w * h := Nat.mul_comm h w
              _ = src.length := hsrc.symm
          have heq : (n : ℤ) * (w : ℤ) + (k : ℤ) * 1 = ((n * w + k : ℕ) : ℤ) := by
            push_cast
            ring
          rw [heq]
          exact ⟨Int.ofNat_nonneg _, by simpa using hlt⟩)
    exact ⟨t2, by simp only [hRows, h1, h2], hl2, hu2⟩

theorem tCols_uniform (src : List Pix) (c v w h : ℕ) (r : ℕ)
    (hu : chUniform c v src) (hc : c < 4) (hv : v ≤ 255) (hr : 2 * r < h)
    (hsrc : src.length = w * h) :
    ∀ n : ℕ, n ≤ w → ∀ tgt : List Pix, chUniform c v tgt →
      tgt.length = src.length →
      ∃ t2, tCols src c w h r n tgt = some t2 ∧ t2.length = src.length ∧
        chUniform c v t2 := by
  intro n
  induction n with
  | zero => intro _ tgt hut hlen; exact ⟨tgt, rfl, hlen, hut⟩
  | succ n ih =>
    intro hn tgt hut hlen
    obtain ⟨t1, h1, hl1, hu1⟩ := ih (by omega) tgt hut hlen
    obtain ⟨t2, h2, hl2, hu2⟩ :=
      blurLine_uniform src t1 c v (n : ℤ) (w : ℤ) h r hu hu1 hc hv hl1 hr
        (by
          intro k hk
          have h3 : (k + 1) * w ≤ h * w := Nat.mul_le_mul_right w (by omega)
          rw [Nat.succ_mul] at h3
          have hlt : n + k * w < src.length :=
            calc n + k * w < w + k * w := Nat.add_lt_add_right (by omega) _
              _ = k * w + w := Nat.add_comm w _
              _ ≤ h * w := h3
              _ = w * h := Nat.mul_comm h w
              _ = src.length := hsrc.symm
          have heq : (n : ℤ) + (k : ℤ) * (w : ℤ) = ((n + k * w : ℕ) : ℤ) := by
            push_cast
            ring
          rw [heq]
          exact ⟨Int.ofNat_nonneg _, by simpa using hlt⟩)
    exact ⟨t2, by simp only [tCols, h1, h2], hl2, hu2⟩

/-! ## C2: one box-blur pass on a channel-uniform buffer -/

/-- C2 counterexample: on the 1-pixel buffer whose channel 0 uniformly holds
5, a box-blur pass of radius 1 indexes past the end of the row and panics
(`none`) — the claim fails for radii with `2·radius ≥ width` or
`2·radius ≥ height`, so it does not hold for *every* radius. -/
theorem box_blur_uniform_any_radius_cex :
    box_blur [(⟨5, 5, 5, 5⟩ : Pix)] 1 1 1 0 = none := by
  with_unfolding_all rfl

/-- C2 (amended): for every non-empty RGBA buffer of size `width · height`
whose channel `c` uniformly holds the byte `v`, and every radius with
`2·radius < width` and `2·radius < height`, one box-blur pass (`box_blur_h`
followed by `box_blur_t`, i.e. `box_blur`) succeeds and leaves channel `c`
equal to `v` at every pixel. -/
theorem box_blur_uniform_channel (data : List Pix) (w h r c v : ℕ)
    (hlen : data.length = w * h) (hw : 2 * r < w) (hh : 2 * r < h)
    (hc : c < 4) (hv : v ≤ 255) (hu : ∀ p ∈ data, p.ch c = some v) :
    ∃ d2, box_blur data w h r c = some d2 ∧ d2.length = data.length ∧
      ∀ p ∈ d2, p.ch c = some v := by
  obtain ⟨t1, h1, hl1, hu1⟩ :=
    hRows_uniform data c v w h r hu hc hv hw hlen h (le_refl h) data hu rfl
  obtain ⟨d2, h2, hl2, hu2⟩ :=
    tCols_uniform t1 c v w h r hu1 hc hv hh (hl1.trans hlen) w (le_refl w) data hu
      (hlen.trans (hl1.trans hlen).symm)
  exact ⟨d2, by simp only [box_blur, box_blur_h, box_blur_t, h1, h2],
    hl2.trans hl1, hu2⟩

/-- C2 witness: the amended theorem applied to the uniform 1x1 buffer holding
9 in channel 0 with radius 0. -/
theorem box_blur_uniform_channel_witness :
    (([(⟨9, 9, 9, 9⟩ : Pix)] : List Pix).length = 1 * 1 ∧ 2 * 0 < 1 ∧ 2 * 0 < 1 ∧
      0 < 4 ∧ 9 ≤ 255 ∧ ∀ p ∈ [(⟨9, 9, 9, 9⟩ : Pix)], p.ch 0 = some 9) ∧
    ∃ d2, box_blur [(⟨9, 9, 9, 9⟩ : Pix)] 1 1 0 0 = some d2 ∧
      d2.length = ([(⟨9, 9, 9, 9⟩ : Pix)] : List Pix).length ∧
      ∀ p ∈ d2, p.ch 0 = some 9 :=
  ⟨⟨by decide, by decide, by decide, by decide, by decide, by decide⟩,
   box_blur_uniform_channel [(⟨9, 9, 9, 9⟩ : Pix)] 1 1 0 0 9 (by decide) (by decide)
     (by decide) (by decide) (by decide) (by decide)⟩

/-! ## Channels other than the blurred one are never written -/

theorem agreesOn_refl (ch : ℕ) (a : List Pix) : agreesOn ch a a :=
  ⟨rfl, fun _ => rfl⟩

theorem agreesOn_trans {ch : ℕ} {a b c2 : List Pix} (h1 : agreesOn ch a b)
    (h2 : agreesOn ch b c2) : agreesOn ch a c2 :=
  ⟨h1.1.trans h2.1, fun i => (h1.2 i).trans (h2.2 i)⟩

theorem writeCh_agreesOn {l l2 : List Pix} {i : ℤ} {c v : ℕ}
    (h : writeCh l i c v = some l2) {ch : ℕ} (hne : ch ≠ c) : agreesOn ch l l2 := by
  unfold writeCh at h
  split at h
  · cases hp : l[i.toNat]? with
    | none => rw [hp] at h; simp at h
    | some p =>
      rw [hp] at h
      simp only [] at h
      cases hq : p.setCh c v with
      | none => rw [hq] at h; simp at h
      | some q =>
        rw [hq] at h
        simp only [Option.some.injEq] at h
        subst h
        have hlt : i.toNat < l.length := by
          by_contra hge
          rw [List.getElem?_eq_none (by omega)] at hp
          exact Option.noConfusion hp
        refine ⟨by simp, ?_⟩
        intro j
        by_cases hji : j = i.toNat
        · subst hji
          rw [List.getElem?_set_eq_of_lt q hlt, hp]
          simp only [optCh, Option.some_bind]
          exact (Pix.setCh_ch_ne hq hne).symm
        · rw [List.getElem?_set_ne (fun hcon => hji hcon.symm)]
  · exact Option.noConfusion h

theorem bLoop1_agreesOn (src : List Pix) (c : ℕ) (d fv : ℤ) (iarr : ℚ)
    {ch : ℕ} (hne : ch ≠ c) :
    ∀ (n : ℕ) (s s2 : BState), bLoop1 src c d fv iarr n s = some s2 →
      agreesOn ch s.tgt s2.tgt := by
  intro n
  induction n with
  | zero =>
    intro s s2 h
    simp only [bLoop1, Option.some.injEq] at h
    subst h
    exact agreesOn_refl ch s.tgt
  | succ n ih =>
    intro s s2 h
    simp only [bLoop1] at h
    split at h
    · split at h
      · exact agreesOn_trans (writeCh_agreesOn (by assumption) hne) (ih _ _ h)
      · exact Option.noConfusion h
    · exact Option.noConfusion h

theorem bLoop2_agreesOn (src : List Pix) (c : ℕ) (d : ℤ) (iarr : ℚ)
    {ch : ℕ} (hne : ch ≠ c) :
    ∀ (n : ℕ) (s s2 : BState), bLoop2 src c d iarr n s = some s2 →
      agreesOn ch s.tgt s2.tgt := by
  intro n
  induction n with
  | zero =>
    intro s s2 h
    simp only [bLoop2, Option.some.injEq] at h
    subst h
    exact agreesOn_refl ch s.tgt
  | succ n ih =>
    intro s s2 h
    simp only [bLoop2] at h
    split at h
    · split at h
      · exact agreesOn_trans (writeCh_agreesOn (by assumption) hne) (ih _ _ h)
      · exact Option.noConfusion h
    · exact Option.noConfusion h

theorem bLoop3_agreesOn (src : List Pix) (c : ℕ) (d lv : ℤ) (iarr : ℚ)
    {ch : ℕ} (hne : ch ≠ c) :
    ∀ (n : ℕ) (s s2 : BState), bLoop3 src c d lv iarr n s = some s2 →
      agreesOn ch s.tgt s2.tgt := by
  intro n
  induction n with
  | zero =>
    intro s s2 h
    simp only [bLoop3, Option.some.injEq] at h
    subst h
    exact agreesOn_refl ch s.tgt
  | succ n ih =>
    intro s s2 h
    simp only [bLoop3] at h
    split at h
    · split at h
      · exact agreesOn_trans (writeCh_agreesOn (by assumption) hne) (ih _ _ h)
      · exact Option.noConfusion h
    · exact Option.noConfusion h

theorem blurLine_agreesOn (src : List Pix) (c : ℕ) (base d : ℤ) (len r : ℕ)
    (tgt t2 : List Pix) {ch : ℕ} (hne : ch ≠ c)
    (h : blurLine src c base d len r tgt = some t2) : agreesOn ch tgt t2 := by
  simp only [blurLine] at h
  split at h
  · split at h
    · split at h
      · split at h
        · split at h
          · simp only [Option.some.injEq] at h
            subst h
            exact agreesOn_trans (bLoop1_agreesOn src c d _ _ hne _ _ _ (by assumption))
              (agreesOn_trans (bLoop2_agreesOn src c d _ hne _ _ _ (by assumption))
                (bLoop3_agreesOn src c d _ _ hne _ _ _ (by assumption)))
          · exact Option.noConfusion h
        · exact Option.noConfusion h
      · exact Option.noConfusion h
    · exact Option.noConfusion h
  · exact Option.noConfusion h

theorem hRows_agreesOn (src : List Pix) (c w r : ℕ) {ch : ℕ} (hne : ch ≠ c) :
    ∀ (n : ℕ) (tgt t2 : List Pix), hRows src c w r n tgt = some t2 →
      agreesOn ch tgt t2 := by
  intro n
  induction n with
  | zero =>
    intro tgt t2 h
    simp only [hRows, Option.some.injEq] at h
    subst h
    exact agreesOn_refl ch tgt
  | succ n ih =>
    intro tgt t2 h
    simp only [hRows] at h
    split at h
    · exact agreesOn_trans (ih _ _ (by assumption))
        (blurLine_agreesOn src c _ _ _ _ _ _ hne h)
    · exact Option.noConfusion h

theorem tCols_agreesOn (src : List Pix) (c w hgt r : ℕ) {ch : ℕ} (hne : ch ≠ c) :
    ∀ (n : ℕ) (tgt t2 : List Pix), tCols src c w hgt r n tgt = some t2 →
      agreesOn ch tgt t2 := by
  intro n
  induction n with
  | zero =>
    intro tgt t2 h
    simp only [tCols, Option.some.injEq] at h
    subst h
    exact agreesOn_refl ch tgt
  | succ n ih =>
    intro tgt t2 h
    simp only [tCols] at h
    split at h
    · exact agreesOn_trans (ih _ _ (by assumption))
        (blurLine_agreesOn src c _ _ _ _ _ _ hne h)
    · exact Option.noConfusion h

theorem box_blur_agreesOn (data d2 : List Pix) (w h r c : ℕ) {ch : ℕ}
    (hne : ch ≠ c) (hb : box_blur data w h r c = some d2) : agreesOn ch data d2 := by
  simp only [box_blur, box_blur_h, box_blur_t] at hb
  split at hb
  · exact tCols_agreesOn _ _ _ _ _ hne _ _ _ hb
  · exact Option.noConfusion hb

theorem blurChannel_agreesOn (data d2 : List Pix) (w h r0 r1 r2 c : ℕ) {ch : ℕ}
    (hne : ch ≠ c) (hb : blurChannel data w h r0 r1 r2 c = some d2) :
    agreesOn ch data d2 := by
  simp only [blurChannel] at hb
  split at hb
  · split at hb
    · exact agreesOn_trans (box_blur_agreesOn _ _ _ _ _ _ hne (by assumption))
        (agreesOn_trans (box_blur_agreesOn _ _ _ _ _ _ hne (by assumption))
          (box_blur_agreesOn _ _ _ _ _ _ hne hb))
    · exact Option.noConfusion hb
  · exact Option.noConfusion hb

theorem blur_agreesOn_alpha (data d2 : List Pix) (w h : ℕ) (radius : ℚ)
    (hb : blur data w h radius = some d2) : agreesOn 3 data d2 := by
  simp only [blur] at hb
  split at hb
  · split at hb
    · split at hb
      · exact agreesOn_trans (blurChannel_agreesOn _ _ _ _ _ _ _ 0 (by decide) (by assumption))
          (agreesOn_trans (blurChannel_agreesOn _ _ _ _ _ _ _ 1 (by decide) (by assumption))
            (blurChannel_agreesOn _ _ _ _ _ _ _ 2 (by decide) hb))
      · exact Option.noConfusion hb
    · exact Option.noConfusion hb
  · exact Option.noConfusion hb

/-! ## C7: `blur` touches only the three color channels -/

/-- C7: whenever `blur` returns a buffer, it has the same length and every
pixel's alpha channel (index 3) is unchanged — the blur writes only channels
0, 1 and 2. -/
theorem blur_preserves_alpha (data d2 : List Pix) (w h : ℕ) (radius : ℚ)
    (hb : blur data w h radius = some d2) :
    d2.length = data.length ∧
    ∀ (i : ℕ) (p q : Pix), data[i]? = some p → d2[i]? = some q → q.c3 = p.c3 := by
  have hag := blur_agreesOn_alpha data d2 w h radius hb
  refine ⟨hag.1.symm, ?_⟩
  intro i p q hp hq
  have h2 := hag.2 i
  rw [hp, hq] at h2
  simp only [optCh, Option.some_bind, Pix.ch, Option.some.injEq] at h2
  exact h2.symm

/-- C7 witness: `blur` on a concrete 1x1 buffer with sigma 0 succeeds and
leaves the alpha byte 4 in place. -/
theorem blur_preserves_alpha_witness :
    blur [(⟨1, 2, 3, 4⟩ : Pix)] 1 1 0 = some [(⟨1, 2, 3, 4⟩ : Pix)] ∧
    (([(⟨1, 2, 3, 4⟩ : Pix)] : List Pix).length =
        ([(⟨1, 2, 3, 4⟩ : Pix)] : List Pix).length ∧
      ∀ (i : ℕ) (p q : Pix), ([(⟨1, 2, 3, 4⟩ : Pix)] : List Pix)[i]? = some p →
        ([(⟨1, 2, 3, 4⟩ : Pix)] : List Pix)[i]? = some q → q.c3 = p.c3) :=
  ⟨by with_unfolding_all rfl,
   blur_preserves_alpha [(⟨1, 2, 3, 4⟩ : Pix)] [(⟨1, 2, 3, 4⟩ : Pix)] 1 1 0
     (by with_unfolding_all rfl)⟩

/-! ## Point-set lemmas for path outlines -/

theorem mem_lineSegSet_left (a b : Point2D) : a ∈ lineSegSet a b :=
  ⟨0, le_refl 0, zero_le_one, by cases a; simp [lerpP]⟩

theorem mem_lineSegSet_right (a b : Point2D) : b ∈ lineSegSet a b :=
  ⟨1, zero_le_one, le_refl 1, by
    cases a; cases b
    simp only [lerpP, Point2D.mk.injEq]
    constructor <;> ring⟩

theorem cubicBezierPoint_zero (a c1 c2 p : Point2D) :
    cubicBezierPoint a c1 c2 p 0 = a := by
  cases a; cases c1; cases c2; cases p
  simp only [cubicBezierPoint, Point2D.mk.injEq]
  constructor <;> ring

theorem lineSegSet_self (a : Point2D) : lineSegSet a a = {a} := by
  ext q
  simp only [lineSegSet, Set.mem_setOf_eq, Set.mem_singleton_iff]
  constructor
  · rintro ⟨t, _, _, rfl⟩
    cases a
    simp only [lerpP, Point2D.mk.injEq]
    constructor <;> ring
  · rintro rfl
    exact mem_lineSegSet_left _ _

theorem cubicSet_const (a : Point2D) : cubicSet a a a a = {a} := by
  ext q
  simp only [cubicSet, Set.mem_setOf_eq, Set.mem_singleton_iff]
  constructor
  · rintro ⟨t, _, _, rfl⟩
    cases a
    simp only [cubicBezierPoint, Point2D.mk.injEq]
    constructor <;> ring
  · rintro rfl
    exact ⟨0, le_refl 0, zero_le_one, (cubicBezierPoint_zero _ _ _ _).symm⟩

/-! ## C8: `rounded_rectangle(w, h, 0)` versus `rectangle(w, h)` -/

/-- C8 counterexample: at `w = h = 2` the point `(0, 1)` lies on the outline
traced by `rounded_rectangle(2, 2, 0)` (its left edge, drawn by the
`LineTo(0, radius)` segment) but not on the outline traced by
`rectangle(2, 2)`, whose three `LineTo` segments never visit `x = 0` away
from `y ∈ {0, 2}` — the builder emits no left edge and no closing segment,
so the two paths are not pixel-equivalent as built. -/
theorem rounded_rectangle_zero_radius_cex :
    pathTrace (path.GeometryPrimitive.rounded_rectangle (T := Unit) 2 2 0).geometry
        false ≠
      pathTrace (path.GeometryPrimitive.rectangle (T := Unit) 2 2).geometry false := by
  intro hEq
  have hmem : (⟨0, 1⟩ : Point2D) ∈
      pathTrace (path.GeometryPrimitive.rounded_rectangle (T := Unit) 2 2 0).geometry
        false := by
    simp only [path.GeometryPrimitive.rounded_rectangle, path.Builder.new, zero_mul,
      sub_zero, pathTrace, pathTraceAux, Bool.false_eq_true, if_false,
      Set.union_empty, Set.mem_union]
    refine Or.inr (Or.inr (Or.inr (Or.inr (Or.inr (Or.inr (Or.inl ?_))))))
    exact ⟨1 / 2, by norm_num, by norm_num, by
      simp only [lerpP, Point2D.mk.injEq]
      norm_num⟩
  rw [hEq] at hmem
  norm_num [path.GeometryPrimitive.rectangle, path.Builder.new, pathTrace, pathTraceAux,
    Bool.false_eq_true, Set.union_empty, Set.mem_union, lineSegSet,
    Set.mem_setOf_eq, lerpP, Point2D.mk.injEq] at hmem

/-- C8 (amended): for every width and height, `rounded_rectangle(w, h, 0)`
(closed or not — its outline already returns to the origin) traces exactly
the same point set as `rectangle(w, h)` *with the closing segment*; as built,
the unclosed `rectangle` path omits the left edge, so equivalence holds only
up to closing the rectangle. -/
theorem rounded_rectangle_zero_pixel_equiv (T : Type) (w h : ℚ) (c : Bool) :
    pathTrace (path.GeometryPrimitive.rounded_rectangle (T := T) w h 0).geometry c =
      pathTrace (path.GeometryPrimitive.rectangle (T := T) w h).geometry true := by
  simp only [path.GeometryPrimitive.rounded_rectangle, path.GeometryPrimitive.rectangle,
    path.Builder.new, zero_mul, sub_zero, pathTrace, pathTraceAux, pathCur, pathStart,
    cubicSet_const, lineSegSet_self, if_true, Set.union_empty]
  have hL1 : (⟨w, 0⟩ : Point2D) ∈ lineSegSet ⟨0, 0⟩ ⟨w, 0⟩ := mem_lineSegSet_right _ _
  have hL2 : (⟨w, h⟩ : Point2D) ∈ lineSegSet ⟨w, 0⟩ ⟨w, h⟩ := mem_lineSegSet_right _ _
  have hL3 : (⟨0, h⟩ : Point2D) ∈ lineSegSet ⟨w, h⟩ ⟨0, h⟩ := mem_lineSegSet_right _ _
  have hL4 : (⟨0, 0⟩ : Point2D) ∈ lineSegSet ⟨0, h⟩ ⟨0, 0⟩ := mem_lineSegSet_right _ _
  cases c
  · simp only [Bool.false_eq_true, if_false, Set.union_empty]
    ext q
    simp only [Set.mem_union, Set.mem_singleton_iff]
    constructor
    · rintro (hq | rfl | hq | rfl | hq | rfl | hq | rfl)
      · exact Or.inl (Or.inl hq)
      · exact Or.inl (Or.inl hL1)
      · exact Or.inl (Or.inr (Or.inl hq))
      · exact Or.inl (Or.inr (Or.inl hL2))
      · exact Or.inl (Or.inr (Or.inr hq))
      · exact Or.inl (Or.inr (Or.inr hL3))
      · exact Or.inr hq
      · exact Or.inr hL4
    · rintro ((hq | hq | hq) | hq)
      · exact Or.inl hq
      · exact Or.inr (Or.inr (Or.inl hq))
      · exact Or.inr (Or.inr (Or.inr (Or.inr (Or.inl hq))))
      · exact Or.inr (Or.inr (Or.inr (Or.inr (Or.inr (Or.inr (Or.inl hq))))))
  · simp only [if_true]
    ext q
    simp only [Set.mem_union, Set.mem_singleton_iff]
    constructor
    · rintro ((hq | rfl | hq | rfl | hq | rfl | hq | rfl) | rfl)
      · exact Or.inl (Or.inl hq)
      · exact Or.inl (Or.inl hL1)
      · exact Or.inl (Or.inr (Or.inl hq))
      · exact Or.inl (Or.inr (Or.inl hL2))
      · exact Or.inl (Or.inr (Or.inr hq))
      · exact Or.inl (Or.inr (Or.inr hL3))
      · exact Or.inr hq
      · exact Or.inr hL4
      · exact Or.inr hL4
    · rintro ((hq | hq | hq) | hq)
      · exact Or.inl (Or.inl hq)
      · exact Or.inl (Or.inr (Or.inr (Or.inl hq)))
      · exact Or.inl (Or.inr (Or.inr (Or.inr (Or.inr (Or.inl hq)))))
      · exact Or.inl (Or.inr (Or.inr (Or.inr (Or.inr (Or.inr (Or.inr (Or.inl hq)))))))

/-! ## C9: the `as_texture`/`from_texture` round-trip -/

/-- C9 (code bug): `as_texture` is a stub — for the concrete one-pixel
texture, `from_texture` builds a (blank) 1x1 surface, and `as_texture` on it
returns the empty 0x0 image rather than the original width, height and
pixels. -/
theorem as_texture_roundtrip_stub :
    (CairoImage.from_texture ⟨[⟨1, 2, 3, 4⟩], ⟨1, 1⟩⟩).map CairoImage.as_texture =
      some (⟨[], ⟨0, 0⟩⟩ : Image) ∧
    (⟨[], ⟨0, 0⟩⟩ : Image) ≠ ⟨[⟨1, 2, 3, 4⟩], ⟨1, 1⟩⟩ := by
  constructor
  · decide
  · decide

/-! ## C10: `Builder::finalize` always yields the default orientation -/

/-- C10: whatever geometry the builder starts from and whatever chain of
`close`/`fill`/`stroke`/`shadow` calls is applied in whatever order, the
finalized `Path`'s orientation is `Transform2D::default()` — `finalize`
hardcodes it and no builder method touches it. -/
theorem builder_finalize_orientation_default (T : Type) (g : List Segment2D)
    (ops : List (path.BuilderOp T)) :
    (path.Builder.applyOps (path.Builder.new g) ops).finalize.orientation =
      Transform2D.default := rfl

/-- C6 witness: the amended resize/to_image theorem applied to a concrete
empty frame, a concrete path object and the whole-number size `(3, 3)`. -/
theorem resize_to_image_size_witness :
    ((3 : ℕ) ≤ 2147483647 ∧ (3 : ℕ) ≤ 2147483647) ∧
    ∃ s2, CairoFrame.resize
        (CairoFrame.add ⟨[], ⟨⟨0, 0⟩, ⟨0, 0⟩⟩, ⟨0, 0⟩, 1, 0, 0⟩
          ⟨Rasterizable.path ⟨[], false, none, none, []⟩, Transform2D.default, 0⟩).1
        ⟨((3 : ℕ) : ℚ), ((3 : ℕ) : ℚ)⟩ = some s2 ∧
      CairoFrame.to_image_size s2 = ⟨((3 : ℕ) : ℚ), ((3 : ℕ) : ℚ)⟩ ∧
      CairoFrame.drawVisits s2 =
        CairoFrame.drawVisits ⟨[], ⟨⟨0, 0⟩, ⟨0, 0⟩⟩, ⟨0, 0⟩, 1, 0, 0⟩ ++
          [(Transform2D.to_matrix Transform2D.default,
            Rasterizable.path ⟨[], false, none, none, []⟩)] :=
  ⟨⟨by decide, by decide⟩,
   resize_to_image_size ⟨[], ⟨⟨0, 0⟩, ⟨0, 0⟩⟩, ⟨0, 0⟩, 1, 0, 0⟩
     ⟨Rasterizable.path ⟨[], false, none, none, []⟩, Transform2D.default, 0⟩ 3 3
     (by decide) (by decide)⟩
